import Mathlib

/-!
Verification of the bit-packing encoder in `src/c/encode.c` (repository
`zyla/huff`).

The C program packs a stream of symbols into a dense LSB-first bit stream
using a per-symbol variable-length codeword table, emitting fixed-width
(8-bit) output words.  This file gives a shallow embedding of that program:

* `codeword_t`, `code_t` mirror the C types (`len` in bits, `bits` the
  content-word array; the C array `word_t bits[MAX_CODEWORD_BITS / W]` is
  modelled as a total function `Nat → Nat`, with the in-boundedness of every
  access treated as a separate, explicitly stated property via
  `numFullWords` / `contentWords`);
* `copyWords`, `mergeCW`, `mergeSym`, `encodeLoop`, `flush`, `encode` mirror
  the body of the C function `encode` (lines 26-62); emitted words
  (`putword`) are collected into a list;
* `mainCode` is the codeword table built in `main` (lines 67-81);
* `encodeChunks` mirrors the `main` read loop (lines 86-88), which calls
  `encode` once per input chunk.

All machine-integer arithmetic is on `Nat` with explicit `% 2 ^ W`
truncation where the C code converts an `int` back to the 8-bit `word_t`.
C's integer promotion makes `cw->bits[w] >> (W - offset)` a shift of an
`int`, defined even for a shift count of `W`; `carry` reproduces exactly
that semantics.
-/

namespace Huff

/-- Word size in bits: `W = sizeof(word_t) * 8` with `word_t = uint8_t`. -/
def W : Nat := 8

/-- Maximum codeword length in bits (`#define MAX_CODEWORD_BITS 256`). -/
def MAX_CODEWORD_BITS : Nat := 256

/-- Number of content words in a codeword: the C array is
`word_t bits[MAX_CODEWORD_BITS / W]`, i.e. 32 words. -/
def contentWords : Nat := MAX_CODEWORD_BITS / W

/-- `codeword_t { size_t len; word_t bits[MAX_CODEWORD_BITS / W]; }`.
The fixed C array is modelled as a total function on word indices; which
indices the algorithm actually reads, and whether they fall inside the
32-word array, is stated separately (`numFullWords`, `contentWords`). -/
structure codeword_t where
  len : Nat
  bits : Nat → Nat

/-- `typedef codeword_t code_t[256]`: the table, as a function from the
symbol to its codeword. -/
abbrev code_t := Nat → codeword_t

/-- The accumulator threaded through the encode loop: the partially filled
output word `buf` and the number `offset` of valid bits in it
(locals `word_t buf; int offset;` of `encode`). -/
structure Acc where
  buf : Nat
  offset : Nat
deriving DecidableEq, Repr

/-- Truncation to the 8-bit word type, applied wherever the C code converts
a promoted `int` result back into a `word_t`. -/
def wordMask (x : Nat) : Nat := x % 2 ^ W

/-- Line 44 of `encode.c`: `buf = cw->bits[w] >> (W - offset);`.
The `uint8_t` operand is promoted to `int`, so the shift is performed for
every `offset` in `[0, W)`, including the full-width shift at
`offset == 0`; the result is truncated on assignment to `word_t`. -/
def carry (offset x : Nat) : Nat := wordMask (x >>> (W - offset))

/-- The carry computation as §4.2 step 3 / §9 of the spec words it: an
explicit conditional, `0` when `offset == 0`, else the word shifted right
by `W - offset`.  Stated from the spec, to be compared with `carry`. -/
def carrySpec (offset x : Nat) : Nat := if offset = 0 then 0 else x >>> (W - offset)

/-- Line 38 of `encode.c`: `int num_words = (offset + cw->len) / W;` —
the number of full output words a merge flushes, and also the index of the
tail content word read at line 52. -/
def numFullWords (offset len : Nat) : Nat := (offset + len) / W

/-- Lines 42-45 of `encode.c`: the loop
`for(w = 0; w < num_words; w++) { putword(buf | (cw->bits[w] << offset)); buf = cw->bits[w] >> (W - offset); }`.
The recursion peels the first remaining content word each step; the
returned pair is the list of emitted words and the final `buf`. -/
def copyWords (bits : Nat → Nat) (offset buf : Nat) : Nat → List Nat × Nat
  | 0 => ([], buf)
  | n + 1 =>
    ((wordMask (buf ||| (bits 0 <<< offset))) ::
        (copyWords (fun i => bits (i + 1)) offset (carry offset (bits 0)) n).1,
      (copyWords (fun i => bits (i + 1)) offset (carry offset (bits 0)) n).2)

/-- Lines 38-55 of `encode.c`: one codeword merge.  Runs the full-word
loop, then line 52 `buf |= (cw->bits[num_words] << offset);`, then line 55
`offset = (offset + cw->len) % W;`. -/
def mergeCW (cw : codeword_t) (s : Acc) : List Nat × Acc :=
  (( copyWords cw.bits s.offset s.buf (numFullWords s.offset cw.len)).1,
    ⟨wordMask ((copyWords cw.bits s.offset s.buf (numFullWords s.offset cw.len)).2 |||
        (cw.bits (numFullWords s.offset cw.len) <<< s.offset)),
      (s.offset + cw.len) % W⟩)

/-- Lines 30-33 then merge: process one input symbol 'sym' by looking up
`code[sym]` and merging its codeword. -/
def mergeSym (code : code_t) (s : Acc) (sym : Nat) : List Nat × Acc :=
  mergeCW (code sym) s

/-- Lines 30-56 of `encode.c`: the `for(i = 0; i < len; i++)` loop over the
input symbols. -/
def encodeLoop (code : code_t) (s : Acc) : List Nat → List Nat × Acc
  | [] => ([], s)
  | sym :: rest =>
    ((mergeSym code s sym).1 ++ (encodeLoop code (mergeSym code s sym).2 rest).1,
      (encodeLoop code (mergeSym code s sym).2 rest).2)

/-- Lines 59-61 of `encode.c`: `if(offset > 0) { putword(buf); }` at the
end of a call, together with the re-initialisation `buf = 0; offset = 0`
that lines 27-28 perform at the start of the next call: the session state
is discarded either way, so the post-state is the initial accumulator. -/
def flush (s : Acc) : List Nat × Acc :=
  ((if 0 < s.offset then [s.buf] else []), ⟨0, 0⟩)

/-- The C function `encode` (lines 26-62): a fresh accumulator (lines
27-28), the symbol loop, and the final partial-word emission. -/
def encode (code : code_t) (input : List Nat) : List Nat :=
  (encodeLoop code ⟨0, 0⟩ input).1 ++ (flush (encodeLoop code ⟨0, 0⟩ input).2).1

/-- The `main` read loop (lines 86-88): `while((len = read(...)) > 0) encode(code, buf, len);`
— one full `encode` call per chunk, outputs concatenated. -/
def encodeChunks (code : code_t) (chunks : List (List Nat)) : List Nat :=
  (chunks.map (encode code)).flatten

/-- A table entry as `main` builds one (lines 71-81): a length and a single
assigned content word `bits[0]`; all other words stay `0` from the
`memset` at line 69. -/
def mkCW (len c : Nat) : codeword_t :=
  ⟨len, fun i => if i = 0 then c else 0⟩

/-- The codeword table of `main` (lines 67-81): A=1 bit `1`, B=2 bits `10`,
C=3 bits `000`, D=4 bits `0100`, E=5 bits `01100`, F=5 bits `11100`, all
LSB-first; every other symbol keeps the zero-length sentinel. -/
def mainCode : code_t := fun sym =>
  if sym = 65 then mkCW 1 1
  else if sym = 66 then mkCW 2 2
  else if sym = 67 then mkCW 3 0
  else if sym = 68 then mkCW 4 4
  else if sym = 69 then mkCW 5 12
  else if sym = 70 then mkCW 5 28
  else mkCW 0 0

/-- Bit `k` of a codeword's content, per the spec's layout: bit index `k`
lives in `content[k / W]` at bit position `k % W`. -/
def contentBit (cw : codeword_t) (k : Nat) : Bool :=
  (cw.bits (k / W)).testBit (k % W)

/-- Well-formedness of a codeword as the spec's data model has it: every
content word fits the 8-bit word type, and the don't-care bits (positions
`≥ len`) are zero (§3: "must be masked or assumed zero by the producer"). -/
def wfCodeword (cw : codeword_t) : Prop :=
  (∀ i, cw.bits i < 2 ^ W) ∧ (∀ k, cw.len ≤ k → contentBit cw k = false)

/-- Lengths for which every content-word access of a merge stays inside the
32-word C array for every accumulator offset in `[0, W)`: the tail index
`(offset + len) / W` is at most `(W - 1 + len) / W`, which is below
`contentWords` exactly when `len + W ≤ MAX_CODEWORD_BITS`. -/
def safeLen (cw : codeword_t) : Prop := cw.len + W ≤ MAX_CODEWORD_BITS

instance (cw : codeword_t) : Decidable (safeLen cw) := by
  unfold safeLen; infer_instance

/-- Value of the first `n` content words, LSB-first: the number whose
base-`2 ^ W` digits are `bits 0, bits 1, ...`. -/
def truncVal (bits : Nat → Nat) : Nat → Nat
  | 0 => 0
  | n + 1 => bits 0 + 2 ^ W * truncVal (fun i => bits (i + 1)) n

/-- The value of a codeword's bit string (its `ceil(len / W)` content
words, LSB-first). -/
def cwVal (cw : codeword_t) : Nat := truncVal cw.bits ((cw.len + W - 1) / W)

/-- The value of the concatenation of the symbols' codewords, LSB-first,
first symbol in the lowest bits (§4.2: the bit stream the packer must
reproduce). -/
def specStream (code : code_t) : List Nat → Nat
  | [] => 0
  | sym :: rest => cwVal (code sym) + 2 ^ (code sym).len * specStream code rest

/-- Total number of meaningful bits of an input: the sum of the symbols'
codeword lengths. -/
def totalLen (code : code_t) : List Nat → Nat
  | [] => 0
  | sym :: rest => (code sym).len + totalLen code rest

/-- The value of an emitted word sequence, LSB-first, word-sequence order:
the number whose base-`2 ^ W` digits are the words. -/
def fromWords : List Nat → Nat
  | [] => 0
  | w :: ws => w + 2 ^ W * fromWords ws

/-- Conversion of an input byte to the `char` the C code indexes the table
with (line 31 `char sym = input[i]`, line 33 `&code[sym]`): on the
reference platform `char` is signed and 8 bits two's complement, so bytes
`≥ 128` become negative. -/
def signedCharOfByte (b : Nat) : Int :=
  if b < 128 then (b : Int) else (b : Int) - 256

/-- The table index `i` actually lies inside the 256-entry array
`code_t`. -/
def indexInTable (i : Int) : Prop := 0 ≤ i ∧ i < 256

instance (i : Int) : Decidable (indexInTable i) := by
  unfold indexInTable; infer_instance

end Huff

namespace Huff

/-! ## Arithmetic helper lemmas -/

lemma W_pos : 0 < W := by decide

lemma fromWords_append (a b : List Nat) :
    fromWords (a ++ b) = fromWords a + 2 ^ (W * a.length) * fromWords b := by
  induction a with
  | nil => simp [fromWords]
  | cons w ws ih =>
    rw [List.cons_append]
    rw [show fromWords (w :: (ws ++ b)) = w + 2 ^ W * fromWords (ws ++ b) from rfl]
    rw [show fromWords (w :: ws) = w + 2 ^ W * fromWords ws from rfl]
    rw [ih, List.length_cons, Nat.mul_succ, pow_add]
    ring

lemma copyWords_len (n : Nat) : ∀ bits o buf, ((copyWords bits o buf n).1).length = n := by
  induction n with
  | zero => intro bits o buf; rfl
  | succ n ih => intro bits o buf; simp [copyWords, ih]

lemma lor_shift_eq_add {o buf x : Nat} (h : buf < 2 ^ o) :
    buf ||| (x <<< o) = buf + 2 ^ o * x := by
  rw [Nat.shiftLeft_eq, Nat.mul_comm x (2 ^ o), Nat.lor_comm, ← Nat.mul_add_lt_is_or h]
  omega

lemma shiftRight_lt {o x : Nat} (ho : o ≤ W) (hx : x < 2 ^ W) : x >>> (W - o) < 2 ^ o := by
  rw [Nat.shiftRight_eq_div_pow, Nat.div_lt_iff_lt_mul (Nat.two_pow_pos _)]
  calc x < 2 ^ W := hx
    _ = 2 ^ o * 2 ^ (W - o) := by rw [← pow_add]; congr 1; omega

lemma carry_eq_shiftRight {o x : Nat} (ho : o ≤ W) (hx : x < 2 ^ W) :
    carry o x = x >>> (W - o) := by
  unfold carry wordMask
  exact Nat.mod_eq_of_lt
    (lt_of_lt_of_le (shiftRight_lt ho hx) (Nat.pow_le_pow_right (by norm_num) ho))

lemma carry_lt {o x : Nat} (ho : o ≤ W) (hx : x < 2 ^ W) : carry o x < 2 ^ o := by
  rw [carry_eq_shiftRight ho hx]
  exact shiftRight_lt ho hx

/-- One iteration of the full-word loop conserves the pending bits: the
emitted word plus the new carry (weighted by `2 ^ W`) equal the old buffer
plus the content word shifted to the current offset. -/
lemma emit_word_eq {o buf x : Nat} (ho : o < W) (hb : buf < 2 ^ o) (hx : x < 2 ^ W) :
    wordMask (buf ||| (x <<< o)) + 2 ^ W * carry o x = buf + 2 ^ o * x ∧
    wordMask (buf ||| (x <<< o)) < 2 ^ W := by
  have hoW : o ≤ W := le_of_lt ho
  have hsplit : 2 ^ o * 2 ^ (W - o) = 2 ^ W := by rw [← pow_add]; congr 1; omega
  have hlow : x % 2 ^ (W - o) < 2 ^ (W - o) := Nat.mod_lt _ (Nat.two_pow_pos _)
  have hx_split : x % 2 ^ (W - o) + 2 ^ (W - o) * (x >>> (W - o)) = x := by
    rw [Nat.shiftRight_eq_div_pow]; exact Nat.mod_add_div x _
  have hlowsum : buf + 2 ^ o * (x % 2 ^ (W - o)) < 2 ^ W := by
    calc buf + 2 ^ o * (x % 2 ^ (W - o)) < 2 ^ o * (x % 2 ^ (W - o) + 1) := by
          rw [Nat.mul_add, Nat.mul_one]; omega
      _ ≤ 2 ^ o * 2 ^ (W - o) := Nat.mul_le_mul_left _ (Nat.succ_le_of_lt hlow)
      _ = 2 ^ W := hsplit
  have hor : buf ||| (x <<< o) = buf + 2 ^ o * x := lor_shift_eq_add hb
  have hval : buf + 2 ^ o * x
      = (buf + 2 ^ o * (x % 2 ^ (W - o))) + 2 ^ W * (x >>> (W - o)) := by
    calc buf + 2 ^ o * x
        = buf + 2 ^ o * (x % 2 ^ (W - o) + 2 ^ (W - o) * (x >>> (W - o))) := by rw [hx_split]
      _ = (buf + 2 ^ o * (x % 2 ^ (W - o))) + (2 ^ o * 2 ^ (W - o)) * (x >>> (W - o)) := by ring
      _ = (buf + 2 ^ o * (x % 2 ^ (W - o))) + 2 ^ W * (x >>> (W - o)) := by rw [hsplit]
  have hmask : wordMask (buf ||| (x <<< o)) = buf + 2 ^ o * (x % 2 ^ (W - o)) := by
    unfold wordMask
    rw [hor, hval, Nat.add_mul_mod_self_left, Nat.mod_eq_of_lt hlowsum]
  constructor
  · rw [hmask, carry_eq_shiftRight hoW hx]
    omega
  · rw [hmask]; exact hlowsum

/-! ## Content-word value lemmas -/

lemma truncVal_eq_zero : ∀ (n : Nat) (bits : Nat → Nat),
    (∀ i, bits i = 0) → truncVal bits n = 0 := by
  intro n
  induction n with
  | zero => intro bits _; rfl
  | succ n ih =>
    intro bits h
    simp [truncVal, h 0, ih (fun i => bits (i + 1)) (fun i => h (i + 1))]

lemma truncVal_succ : ∀ (n : Nat) (bits : Nat → Nat),
    truncVal bits (n + 1) = truncVal bits n + 2 ^ (W * n) * bits n := by
  intro n
  induction n with
  | zero => intro bits; simp [truncVal]
  | succ n ih =>
    intro bits
    have h1 : truncVal bits (n + 1 + 1)
        = bits 0 + 2 ^ W * truncVal (fun i => bits (i + 1)) (n + 1) := rfl
    have h2 : truncVal bits (n + 1)
        = bits 0 + 2 ^ W * truncVal (fun i => bits (i + 1)) n := rfl
    rw [h1, h2, ih (fun i => bits (i + 1))]
    rw [Nat.mul_succ, pow_add]
    ring

lemma truncVal_stable {bits : Nat → Nat} {c : Nat} (h : ∀ i, c ≤ i → bits i = 0) :
    ∀ m, c ≤ m → truncVal bits m = truncVal bits c := by
  intro m
  induction m with
  | zero => intro hm; rw [Nat.le_zero.mp hm]
  | succ m ih =>
    intro hm
    rcases Nat.lt_or_ge c (m + 1) with h1 | h1
    · have hc : c ≤ m := Nat.lt_succ_iff.mp h1
      rw [truncVal_succ, h m hc, ih hc]
      simp
    · rw [le_antisymm hm h1]

/-- A word sequence whose bits at stream positions `≥ L` are all zero has
value below `2 ^ L`, whatever the number of words summed. -/
lemma truncVal_lt_of_high_zero :
    ∀ (m : Nat) (bits : Nat → Nat) (L : Nat),
      (∀ i, bits i < 2 ^ W) →
      (∀ k, L ≤ k → (bits (k / W)).testBit (k % W) = false) →
      truncVal bits m < 2 ^ L := by
  intro m
  induction m with
  | zero =>
    intro bits L _ _
    exact Nat.two_pow_pos L
  | succ m ih =>
    intro bits L hb hh
    rcases Nat.lt_or_ge L W with hLW | hLW
    · have hhead : bits 0 < 2 ^ L := by
        apply Nat.lt_pow_two_of_testBit
        intro j hj
        rcases Nat.lt_or_ge j W with hjW | hjW
        · have h2 := hh j hj
          rwa [Nat.div_eq_of_lt hjW, Nat.mod_eq_of_lt hjW] at h2
        · exact Nat.testBit_lt_two_pow
            (lt_of_lt_of_le (hb 0) (Nat.pow_le_pow_right (by norm_num) hjW))
      have htail : truncVal (fun i => bits (i + 1)) m = 0 := by
        apply truncVal_eq_zero
        intro i
        apply Nat.eq_of_testBit_eq
        intro j
        simp only [Nat.zero_testBit]
        rcases Nat.lt_or_ge j W with hjW | hjW
        · have hWi : W ≤ W * (i + 1) := by
            calc W = W * 1 := (Nat.mul_one W).symm
              _ ≤ W * (i + 1) := Nat.mul_le_mul_left W (by omega)
          have hk := hh (W * (i + 1) + j) (by omega)
          rwa [Nat.mul_add_div W_pos, Nat.div_eq_of_lt hjW, Nat.add_zero,
            Nat.mul_add_mod, Nat.mod_eq_of_lt hjW] at hk
        · exact Nat.testBit_lt_two_pow
            (lt_of_lt_of_le (hb (i + 1)) (Nat.pow_le_pow_right (by norm_num) hjW))
      rw [truncVal, htail]
      simpa using hhead
    · have htail : truncVal (fun i => bits (i + 1)) m < 2 ^ (L - W) := by
        apply ih _ _ (fun i => hb (i + 1))
        intro k hk
        have hk2 := hh (k + W) (by omega)
        rwa [Nat.add_div_right _ W_pos, Nat.add_mod_right] at hk2
      have hsplit : 2 ^ W * 2 ^ (L - W) = 2 ^ L := by rw [← pow_add]; congr 1; omega
      rw [truncVal]
      calc bits 0 + 2 ^ W * truncVal (fun i => bits (i + 1)) m
          < 2 ^ W * (truncVal (fun i => bits (i + 1)) m + 1) := by
            rw [Nat.mul_add, Nat.mul_one]
            have := hb 0
            omega
        _ ≤ 2 ^ W * 2 ^ (L - W) := Nat.mul_le_mul_left _ (Nat.succ_le_of_lt htail)
        _ = 2 ^ L := hsplit

lemma cwVal_lt {cw : codeword_t} (hwf : wfCodeword cw) : cwVal cw < 2 ^ cw.len := by
  apply truncVal_lt_of_high_zero _ _ _ hwf.1
  intro k hk
  exact hwf.2 k hk

lemma specStream_lt {code : code_t} : ∀ input : List Nat,
    (∀ sym ∈ input, wfCodeword (code sym)) →
    specStream code input < 2 ^ totalLen code input := by
  intro input
  induction input with
  | nil => intro _; simp [specStream, totalLen]
  | cons sym rest ih =>
    intro h
    have h1 := cwVal_lt (h sym (by simp))
    have h2 := ih (fun s hs => h s (by simp [hs]))
    simp only [specStream, totalLen]
    calc cwVal (code sym) + 2 ^ (code sym).len * specStream code rest
        < 2 ^ (code sym).len * (specStream code rest + 1) := by
          rw [Nat.mul_add, Nat.mul_one]; omega
      _ ≤ 2 ^ (code sym).len * 2 ^ totalLen code rest :=
          Nat.mul_le_mul_left _ (Nat.succ_le_of_lt h2)
      _ = 2 ^ ((code sym).len + totalLen code rest) := (pow_add 2 _ _).symm

lemma bits_word_eq_zero {cw : codeword_t} (hwf : wfCodeword cw) {i : Nat}
    (h : cw.len ≤ W * i) : cw.bits i = 0 := by
  apply Nat.eq_of_testBit_eq
  intro j
  simp only [Nat.zero_testBit]
  rcases Nat.lt_or_ge j W with hj | hj
  · have hk := hwf.2 (W * i + j) (le_trans h (Nat.le_add_right _ _))
    unfold contentBit at hk
    rwa [Nat.mul_add_div W_pos, Nat.div_eq_of_lt hj, Nat.add_zero,
      Nat.mul_add_mod, Nat.mod_eq_of_lt hj] at hk
  · exact Nat.testBit_lt_two_pow
      (lt_of_lt_of_le (hwf.1 i) (Nat.pow_le_pow_right (by norm_num) hj))

lemma testBit_ge_W {x j : Nat} (hx : x < 2 ^ W) (hj : W ≤ j) : x.testBit j = false :=
  Nat.testBit_lt_two_pow (lt_of_lt_of_le hx (Nat.pow_le_pow_right (by norm_num) hj))

lemma testBit_bits_eq_contentBit (cw : codeword_t) {j : Nat} (i : Nat) (hj : j < W) :
    (cw.bits i).testBit j = contentBit cw (W * i + j) := by
  unfold contentBit
  rw [Nat.mul_add_div W_pos, Nat.div_eq_of_lt hj, Nat.add_zero,
    Nat.mul_add_mod, Nat.mod_eq_of_lt hj]

/-! ## The full-word copy loop -/

lemma copyWords_final :
    ∀ (n : Nat) (bits : Nat → Nat) (o buf : Nat),
      (copyWords bits o buf (n + 1)).2 = carry o (bits n) := by
  intro n
  induction n with
  | zero => intro bits o buf; rfl
  | succ n ih => intro bits o buf; exact ih (fun i => bits (i + 1)) o (carry o (bits 0))

/-- Invariant of the loop at lines 42-45: the words emitted so far plus the
pending carry conserve the buffered and copied bits, every emitted word
fits the word type, and the carry stays below `2 ^ offset`. -/
lemma copyWords_spec :
    ∀ (n : Nat) (bits : Nat → Nat) (o buf : Nat),
      o < W → buf < 2 ^ o → (∀ i, bits i < 2 ^ W) →
      (∀ u ∈ (copyWords bits o buf n).1, u < 2 ^ W) ∧
      (copyWords bits o buf n).2 < 2 ^ o ∧
      fromWords (copyWords bits o buf n).1 + 2 ^ (W * n) * (copyWords bits o buf n).2
        = buf + 2 ^ o * truncVal bits n := by
  intro n
  induction n with
  | zero =>
    intro bits o buf ho hb hbits
    refine ⟨?_, hb, ?_⟩
    · intro u hu
      exact absurd hu (by simp [copyWords])
    · simp [copyWords, truncVal, fromWords]
  | succ n ih =>
    intro bits o buf ho hb hbits
    obtain ⟨hsum, hout_lt⟩ := emit_word_eq ho hb (hbits 0)
    have hc := carry_lt (le_of_lt ho) (hbits 0)
    obtain ⟨ihmem, ihbuf, ihval⟩ :=
      ih (fun i => bits (i + 1)) o (carry o (bits 0)) ho hc (fun i => hbits (i + 1))
    refine ⟨?_, ihbuf, ?_⟩
    · intro u hu
      have hu2 : u ∈ wordMask (buf ||| (bits 0 <<< o)) ::
          (copyWords (fun i => bits (i + 1)) o (carry o (bits 0)) n).1 := hu
      rcases List.mem_cons.mp hu2 with h | h
      · rw [h]; exact hout_lt
      · exact ihmem u h
    · have hunf : (copyWords bits o buf (n + 1)).1
          = wordMask (buf ||| (bits 0 <<< o)) ::
            (copyWords (fun i => bits (i + 1)) o (carry o (bits 0)) n).1 := rfl
      have hbufF : (copyWords bits o buf (n + 1)).2
          = (copyWords (fun i => bits (i + 1)) o (carry o (bits 0)) n).2 := rfl
      have htv : truncVal bits (n + 1)
          = bits 0 + 2 ^ W * truncVal (fun i => bits (i + 1)) n := rfl
      rw [hunf, hbufF, htv]
      rw [show fromWords (wordMask (buf ||| (bits 0 <<< o)) ::
            (copyWords (fun i => bits (i + 1)) o (carry o (bits 0)) n).1)
          = wordMask (buf ||| (bits 0 <<< o)) + 2 ^ W *
            fromWords ((copyWords (fun i => bits (i + 1)) o (carry o (bits 0)) n).1)
          from rfl]
      rw [Nat.mul_succ, pow_add]
      calc wordMask (buf ||| (bits 0 <<< o)) + 2 ^ W *
              fromWords ((copyWords (fun i => bits (i + 1)) o (carry o (bits 0)) n).1) +
            2 ^ (W * n) * 2 ^ W *
              (copyWords (fun i => bits (i + 1)) o (carry o (bits 0)) n).2
          = wordMask (buf ||| (bits 0 <<< o)) + 2 ^ W *
              (fromWords ((copyWords (fun i => bits (i + 1)) o (carry o (bits 0)) n).1) +
                2 ^ (W * n) *
                  (copyWords (fun i => bits (i + 1)) o (carry o (bits 0)) n).2) := by ring
        _ = wordMask (buf ||| (bits 0 <<< o)) + 2 ^ W *
              (carry o (bits 0) + 2 ^ o * truncVal (fun i => bits (i + 1)) n) := by rw [ihval]
        _ = (wordMask (buf ||| (bits 0 <<< o)) + 2 ^ W * carry o (bits 0)) +
              2 ^ o * (2 ^ W * truncVal (fun i => bits (i + 1)) n) := by ring
        _ = (buf + 2 ^ o * bits 0) +
              2 ^ o * (2 ^ W * truncVal (fun i => bits (i + 1)) n) := by rw [hsum]
        _ = buf + 2 ^ o * (bits 0 + 2 ^ W * truncVal (fun i => bits (i + 1)) n) := by ring

/-! ## Single-merge correctness -/

/-- Correctness of one codeword merge (lines 38-55): under the accumulator
invariant and a well-formed codeword, the merge emits exactly `num_words`
words of the word type, sets the offset to `(offset + len) % W`, keeps the
new buffer below `2 ^ offset'`, and conserves the bit stream: the emitted
words plus the pending buffer equal the old pending bits plus the
codeword's value shifted up to the old offset. -/
lemma mergeCW_spec {cw : codeword_t} {s : Acc}
    (ho : s.offset < W) (hb : s.buf < 2 ^ s.offset) (hwf : wfCodeword cw) :
    (mergeCW cw s).1.length = numFullWords s.offset cw.len ∧
    (∀ u ∈ (mergeCW cw s).1, u < 2 ^ W) ∧
    (mergeCW cw s).2.offset = (s.offset + cw.len) % W ∧
    (mergeCW cw s).2.buf < 2 ^ ((s.offset + cw.len) % W) ∧
    fromWords (mergeCW cw s).1
        + 2 ^ (W * numFullWords s.offset cw.len) * (mergeCW cw s).2.buf
      = s.buf + 2 ^ s.offset * cwVal cw := by
  have hW8 : W = 8 := rfl
  obtain ⟨hmem, hbuf1, hval⟩ :=
    copyWords_spec (numFullWords s.offset cw.len) cw.bits s.offset s.buf ho hb hwf.1
  have hno : (s.offset + cw.len) % W < W := Nat.mod_lt _ W_pos
  -- bits of the final loop carry at positions at or above the new offset are zero
  have hbufbit : ∀ j, (s.offset + cw.len) % W ≤ j →
      ((copyWords cw.bits s.offset s.buf (numFullWords s.offset cw.len)).2).testBit j
        = false := by
    intro j hj
    rcases hcase : numFullWords s.offset cw.len with _ | m
    · have hbb : (copyWords cw.bits s.offset s.buf 0).2 = s.buf := rfl
      rw [hbb]
      have hc2 : (s.offset + cw.len) / W = 0 := hcase
      have hoj : s.offset ≤ j := by
        rw [hW8] at hc2 hj
        omega
      exact Nat.testBit_lt_two_pow
        (lt_of_lt_of_le hb (Nat.pow_le_pow_right (by norm_num) hoj))
    · rw [copyWords_final m cw.bits s.offset s.buf,
        carry_eq_shiftRight (le_of_lt ho) (hwf.1 m), Nat.testBit_shiftRight]
      rcases Nat.lt_or_ge (W - s.offset + j) W with hlt | hge
      · rw [testBit_bits_eq_contentBit cw m hlt]
        apply hwf.2
        have hc2 : (s.offset + cw.len) / W = m + 1 := hcase
        rw [hW8] at hc2 hj ho ⊢
        omega
      · exact testBit_ge_W (hwf.1 m) hge
  -- bits of the shifted tail word at positions at or above the new offset are zero
  have htailbit : ∀ j, (s.offset + cw.len) % W ≤ j →
      ((cw.bits (numFullWords s.offset cw.len)) <<< s.offset).testBit j = false := by
    intro j hj
    rw [Nat.testBit_shiftLeft]
    rcases Nat.lt_or_ge j s.offset with hlt | hge
    · simp [Nat.not_le.mpr hlt]
    · have hd : decide (j ≥ s.offset) = true := by simp [hge]
      rw [hd, Bool.true_and]
      rcases Nat.lt_or_ge (j - s.offset) W with hlt2 | hge2
      · rw [testBit_bits_eq_contentBit cw _ hlt2]
        apply hwf.2
        show cw.len ≤ W * ((s.offset + cw.len) / W) + (j - s.offset)
        rw [hW8] at hj ⊢
        omega
      · exact testBit_ge_W (hwf.1 _) hge2
  have hraw_lt : (copyWords cw.bits s.offset s.buf (numFullWords s.offset cw.len)).2 |||
      (cw.bits (numFullWords s.offset cw.len) <<< s.offset)
        < 2 ^ ((s.offset + cw.len) % W) := by
    apply Nat.lt_pow_two_of_testBit
    intro j hj
    rw [Nat.testBit_lor, hbufbit j hj, htailbit j hj]
    rfl
  have hraw_ltW : (copyWords cw.bits s.offset s.buf (numFullWords s.offset cw.len)).2 |||
      (cw.bits (numFullWords s.offset cw.len) <<< s.offset) < 2 ^ W :=
    lt_of_lt_of_le hraw_lt (Nat.pow_le_pow_right (by norm_num) (le_of_lt hno))
  have hmask_raw : (mergeCW cw s).2.buf
      = (copyWords cw.bits s.offset s.buf (numFullWords s.offset cw.len)).2 |||
        (cw.bits (numFullWords s.offset cw.len) <<< s.offset) :=
    Nat.mod_eq_of_lt hraw_ltW
  have hbuf2_val : (copyWords cw.bits s.offset s.buf (numFullWords s.offset cw.len)).2 |||
      (cw.bits (numFullWords s.offset cw.len) <<< s.offset)
      = (copyWords cw.bits s.offset s.buf (numFullWords s.offset cw.len)).2
        + 2 ^ s.offset * cw.bits (numFullWords s.offset cw.len) :=
    lor_shift_eq_add hbuf1
  have hzero : ∀ i, (cw.len + W - 1) / W ≤ i → cw.bits i = 0 := by
    intro i hi
    apply bits_word_eq_zero hwf
    rw [hW8] at hi ⊢
    omega
  have hceil_le : (cw.len + W - 1) / W ≤ numFullWords s.offset cw.len + 1 := by
    show (cw.len + W - 1) / W ≤ (s.offset + cw.len) / W + 1
    rw [hW8]
    omega
  have hstable : truncVal cw.bits (numFullWords s.offset cw.len + 1) = cwVal cw :=
    truncVal_stable hzero _ hceil_le
  refine ⟨copyWords_len _ _ _ _, hmem, rfl, ?_, ?_⟩
  · rw [show (mergeCW cw s).2.buf
        = wordMask ((copyWords cw.bits s.offset s.buf (numFullWords s.offset cw.len)).2 |||
            (cw.bits (numFullWords s.offset cw.len) <<< s.offset)) from rfl]
    calc wordMask ((copyWords cw.bits s.offset s.buf (numFullWords s.offset cw.len)).2 |||
            (cw.bits (numFullWords s.offset cw.len) <<< s.offset))
        ≤ (copyWords cw.bits s.offset s.buf (numFullWords s.offset cw.len)).2 |||
            (cw.bits (numFullWords s.offset cw.len) <<< s.offset) := Nat.mod_le _ _
      _ < 2 ^ ((s.offset + cw.len) % W) := hraw_lt
  · rw [show (mergeCW cw s).1
        = (copyWords cw.bits s.offset s.buf (numFullWords s.offset cw.len)).1 from rfl,
      hmask_raw, hbuf2_val]
    calc fromWords (copyWords cw.bits s.offset s.buf (numFullWords s.offset cw.len)).1
          + 2 ^ (W * numFullWords s.offset cw.len) *
            ((copyWords cw.bits s.offset s.buf (numFullWords s.offset cw.len)).2
              + 2 ^ s.offset * cw.bits (numFullWords s.offset cw.len))
        = (fromWords (copyWords cw.bits s.offset s.buf (numFullWords s.offset cw.len)).1
            + 2 ^ (W * numFullWords s.offset cw.len) *
              (copyWords cw.bits s.offset s.buf (numFullWords s.offset cw.len)).2)
          + 2 ^ s.offset * (2 ^ (W * numFullWords s.offset cw.len) *
              cw.bits (numFullWords s.offset cw.len)) := by ring
      _ = (s.buf + 2 ^ s.offset * truncVal cw.bits (numFullWords s.offset cw.len))
          + 2 ^ s.offset * (2 ^ (W * numFullWords s.offset cw.len) *
              cw.bits (numFullWords s.offset cw.len)) := by rw [hval]
      _ = s.buf + 2 ^ s.offset * (truncVal cw.bits (numFullWords s.offset cw.len)
            + 2 ^ (W * numFullWords s.offset cw.len) *
              cw.bits (numFullWords s.offset cw.len)) := by ring
      _ = s.buf + 2 ^ s.offset * truncVal cw.bits (numFullWords s.offset cw.len + 1) := by
            rw [truncVal_succ]
      _ = s.buf + 2 ^ s.offset * cwVal cw := by rw [hstable]

/-! ## The symbol loop -/

/-- Word-count bookkeeping of the symbol loop, independent of the codeword
contents: the number of emitted words and the final offset depend only on
the sum of the codeword lengths. -/
lemma encodeLoop_count (code : code_t) :
    ∀ (input : List Nat) (s : Acc), s.offset < W →
      (encodeLoop code s input).1.length = (s.offset + totalLen code input) / W ∧
      (encodeLoop code s input).2.offset = (s.offset + totalLen code input) % W := by
  intro input
  induction input with
  | nil =>
    intro s ho
    constructor
    · show (0 : Nat) = (s.offset + totalLen code []) / W
      have ht : totalLen code ([] : List Nat) = 0 := rfl
      rw [ht, Nat.add_zero, Nat.div_eq_of_lt ho]
    · show s.offset = (s.offset + totalLen code []) % W
      have ht : totalLen code ([] : List Nat) = 0 := rfl
      rw [ht, Nat.add_zero, Nat.mod_eq_of_lt ho]
  | cons sym rest ih =>
    intro s ho
    have hW8 : W = 8 := rfl
    have h1 : (encodeLoop code s (sym :: rest)).1
        = (mergeCW (code sym) s).1 ++ (encodeLoop code (mergeCW (code sym) s).2 rest).1 := rfl
    have h2 : (encodeLoop code s (sym :: rest)).2
        = (encodeLoop code (mergeCW (code sym) s).2 rest).2 := rfl
    have hmlen : (mergeCW (code sym) s).1.length = numFullWords s.offset (code sym).len :=
      copyWords_len _ _ _ _
    have hoff2 : (mergeCW (code sym) s).2.offset = (s.offset + (code sym).len) % W := rfl
    obtain ⟨ihlen, ihoff⟩ := ih (mergeCW (code sym) s).2
      (by rw [hoff2]; exact Nat.mod_lt _ W_pos)
    rw [hoff2] at ihlen ihoff
    have ht : totalLen code (sym :: rest) = (code sym).len + totalLen code rest := rfl
    constructor
    · rw [h1, List.length_append, hmlen, ihlen, ht]
      show (s.offset + (code sym).len) / W + _ = _
      rw [hW8]
      omega
    · rw [h2, ihoff, ht, hW8]
      omega

/-- Full correctness invariant of the symbol loop: starting from any state
satisfying the accumulator invariant, with well-formed codewords for all
input symbols, every emitted word fits the word type, the invariant is
preserved, and emitted words plus pending buffer conserve the
concatenated codeword bit stream. -/
lemma encodeLoop_spec (code : code_t) :
    ∀ (input : List Nat) (s : Acc), s.offset < W → s.buf < 2 ^ s.offset →
      (∀ sym ∈ input, wfCodeword (code sym)) →
      (∀ u ∈ (encodeLoop code s input).1, u < 2 ^ W) ∧
      (encodeLoop code s input).2.buf < 2 ^ (encodeLoop code s input).2.offset ∧
      fromWords (encodeLoop code s input).1
          + 2 ^ (W * (encodeLoop code s input).1.length) * (encodeLoop code s input).2.buf
        = s.buf + 2 ^ s.offset * specStream code input := by
  intro input
  induction input with
  | nil =>
    intro s ho hb _
    refine ⟨?_, hb, ?_⟩
    · intro u hu
      exact absurd hu (by simp [encodeLoop])
    · simp [encodeLoop, fromWords, specStream]
  | cons sym rest ih =>
    intro s ho hb hwf
    obtain ⟨hm_len, hm_mem, hm_off, hm_buf, hm_val⟩ :=
      mergeCW_spec ho hb (hwf sym (by simp))
    have h1 : (encodeLoop code s (sym :: rest)).1
        = (mergeCW (code sym) s).1 ++ (encodeLoop code (mergeCW (code sym) s).2 rest).1 := rfl
    have h2 : (encodeLoop code s (sym :: rest)).2
        = (encodeLoop code (mergeCW (code sym) s).2 rest).2 := rfl
    have hno : (mergeCW (code sym) s).2.offset < W := by
      rw [hm_off]
      exact Nat.mod_lt _ W_pos
    have hm_buf2 : (mergeCW (code sym) s).2.buf < 2 ^ (mergeCW (code sym) s).2.offset := by
      rw [hm_off]
      exact hm_buf
    obtain ⟨ihmem, ihbuf, ihval⟩ := ih (mergeCW (code sym) s).2 hno hm_buf2
      (fun t ht => hwf t (by simp [ht]))
    refine ⟨?_, ihbuf, ?_⟩
    · intro u hu
      rw [h1] at hu
      rcases List.mem_append.mp hu with h | h
      · exact hm_mem u h
      · exact ihmem u h
    · rw [h1, h2, fromWords_append, List.length_append, hm_len]
      rw [hm_off] at ihval
      have hexp : W * numFullWords s.offset (code sym).len
          + (s.offset + (code sym).len) % W = s.offset + (code sym).len :=
        Nat.div_add_mod _ _
      have hs : specStream code (sym :: rest)
          = cwVal (code sym) + 2 ^ (code sym).len * specStream code rest := rfl
      rw [hs]
      set A := fromWords (mergeCW (code sym) s).1 with hA
      set n1 := numFullWords s.offset (code sym).len with hn1
      set R := fromWords (encodeLoop code (mergeCW (code sym) s).2 rest).1 with hR
      set n2 := (encodeLoop code (mergeCW (code sym) s).2 rest).1.length with hn2
      set B := (encodeLoop code (mergeCW (code sym) s).2 rest).2.buf with hB
      set S := specStream code rest with hS
      set mb := (mergeCW (code sym) s).2.buf with hmb
      calc A + 2 ^ (W * n1) * R + 2 ^ (W * (n1 + n2)) * B
          = A + 2 ^ (W * n1) * (R + 2 ^ (W * n2) * B) := by
            rw [Nat.mul_add W n1 n2, pow_add]
            ring
        _ = A + 2 ^ (W * n1) * (mb + 2 ^ ((s.offset + (code sym).len) % W) * S) := by
            rw [ihval]
        _ = (A + 2 ^ (W * n1) * mb)
            + (2 ^ (W * n1) * 2 ^ ((s.offset + (code sym).len) % W)) * S := by ring
        _ = (s.buf + 2 ^ s.offset * cwVal (code sym))
            + (2 ^ (W * n1) * 2 ^ ((s.offset + (code sym).len) % W)) * S := by
            rw [hm_val]
        _ = (s.buf + 2 ^ s.offset * cwVal (code sym)) + 2 ^ (s.offset + (code sym).len) * S := by
            rw [← pow_add, hexp]
        _ = s.buf + 2 ^ s.offset * (cwVal (code sym) + 2 ^ (code sym).len * S) := by
            rw [pow_add]
            ring

/-! ## Codeword extensionality and table congruence -/

/-- Two well-formed codewords that agree on the length and on every
meaningful content bit are equal: the don't-care positions are pinned to
zero by well-formedness, the in-range positions by the agreement. -/
lemma codeword_eq_of_agree {c1 c2 : codeword_t} (hwf1 : wfCodeword c1) (hwf2 : wfCodeword c2)
    (hlen : c1.len = c2.len)
    (hbits : ∀ k, k < c1.len → contentBit c1 k = contentBit c2 k) : c1 = c2 := by
  have hb : c1.bits = c2.bits := by
    funext i
    apply Nat.eq_of_testBit_eq
    intro j
    rcases Nat.lt_or_ge j W with hj | hj
    · rw [testBit_bits_eq_contentBit c1 i hj, testBit_bits_eq_contentBit c2 i hj]
      rcases Nat.lt_or_ge (W * i + j) c1.len with hk | hk
      · exact hbits _ hk
      · rw [hwf1.2 _ hk, hwf2.2 _ (hlen ▸ hk)]
    · rw [testBit_ge_W (hwf1.1 i) hj, testBit_ge_W (hwf2.1 i) hj]
  calc c1 = ⟨c1.len, c1.bits⟩ := rfl
    _ = ⟨c2.len, c2.bits⟩ := by rw [hlen, hb]
    _ = c2 := rfl

lemma encodeLoop_congr (code1 code2 : code_t) :
    ∀ (input : List Nat) (s : Acc), (∀ sym ∈ input, code1 sym = code2 sym) →
      encodeLoop code1 s input = encodeLoop code2 s input := by
  intro input
  induction input with
  | nil => intro s _; rfl
  | cons sym rest ih =>
    intro s h
    have e1 : encodeLoop code1 s (sym :: rest)
        = ((mergeCW (code1 sym) s).1 ++ (encodeLoop code1 (mergeCW (code1 sym) s).2 rest).1,
            (encodeLoop code1 (mergeCW (code1 sym) s).2 rest).2) := rfl
    have e2 : encodeLoop code2 s (sym :: rest)
        = ((mergeCW (code2 sym) s).1 ++ (encodeLoop code2 (mergeCW (code2 sym) s).2 rest).1,
            (encodeLoop code2 (mergeCW (code2 sym) s).2 rest).2) := rfl
    rw [e1, e2, h sym (by simp),
      ih (mergeCW (code2 sym) s).2 (fun t ht => h t (by simp [ht]))]

/-! ## Well-formedness of the `main` table -/

lemma wf_mkCW {len c : Nat} (h1 : c < 2 ^ len) (h2 : c < 2 ^ W) :
    wfCodeword (mkCW len c) := by
  constructor
  · intro i
    show (if i = 0 then c else 0) < 2 ^ W
    by_cases hi : i = 0
    · rw [if_pos hi]; exact h2
    · rw [if_neg hi]; exact Nat.two_pow_pos W
  · intro k hk
    show ((fun i => if i = 0 then c else 0) (k / W)).testBit (k % W) = false
    by_cases hkW : k / W = 0
    · have hkltW : k < W := by
        have hW8 : W = 8 := rfl
        rw [hW8] at hkW ⊢
        omega
      simp only [hkW, if_pos rfl]
      rw [Nat.mod_eq_of_lt hkltW]
      exact Nat.testBit_lt_two_pow
        (lt_of_lt_of_le h1 (Nat.pow_le_pow_right (by norm_num) hk))
    · simp [hkW]

lemma wf_mainCode : ∀ sym, wfCodeword (mainCode sym) := by
  intro sym
  unfold mainCode
  repeat' split
  all_goals exact wf_mkCW (by decide) (by decide)

/-! ## Claim theorems: concrete evaluations -/

/-- Claim C2 (code_bug evaluation): delivering the input "AB" as the two
chunks "A", "B" through `main`'s read loop does not reproduce the output
of packing "AB" in one call: the accumulator is re-initialised and flushed
on every `encode` invocation, so the chunked run emits `0x01 0x02` while
the single call emits the single word `0x05`. -/
theorem chunked_encode_differs :
    encodeChunks mainCode [[65], [66]] = [1, 2] ∧
    encode mainCode ([65] ++ [66]) = [5] ∧
    encodeChunks mainCode [[65], [66]] ≠ encode mainCode ([65] ++ [66]) := by
  decide

/-- Claim C5 (code_bug evaluation): merging the symbol 'Z' (0x5A), whose
table entry has `len == 0`, is a silent no-op: no error of any kind exists
in the code, no output word is produced, the accumulator is unchanged, and
the inputs "Z" and "ZA" collapse onto the outputs of "" and "A". -/
theorem unassigned_symbol_silent_noop :
    mergeSym mainCode ⟨0, 0⟩ 90 = ([], ⟨0, 0⟩) ∧
    encode mainCode [90] = [] ∧
    encode mainCode [90, 65] = encode mainCode [65] := by
  decide

/-- Claim C6 (code_bug evaluation): with the platform's signed 8-bit
`char`, the input byte 0x80 is looked up at table index `-128`, which lies
outside the 256-entry `code_t` array — the lookup is not total over the
256-value byte domain. -/
theorem lookup_index_escapes_table :
    signedCharOfByte 128 = -128 ∧
    ¬ indexInTable (signedCharOfByte 128) ∧
    (∀ b < 128, indexInTable (signedCharOfByte b)) := by
  refine ⟨by decide, by decide, ?_⟩
  intro b hb
  unfold signedCharOfByte indexInTable
  simp only [if_pos hb]
  omega

/-- Claim C9: `flush` emits the buffer as exactly one final word iff the
offset is strictly positive, resets the accumulator to the initial state,
and a second flush with nothing merged in between emits nothing. -/
theorem flush_emits_iff_resets :
    ∀ s : Acc,
      ((flush s).1 = [s.buf] ↔ 0 < s.offset) ∧
      ((flush s).1 = [] ↔ s.offset = 0) ∧
      (flush s).2 = ⟨0, 0⟩ ∧
      flush ((flush s).2) = ([], ⟨0, 0⟩) := by
  intro s
  unfold flush
  by_cases h : 0 < s.offset
  · simp [h]
    omega
  · simp [h]
    omega

/-- Claim C3 (counterexample): the spec allows codeword lengths up to
`MAX_CODEWORD_BITS = 256`, but already at `offset = 0` a merge of a
256-bit codeword reads tail index `num_words = 32`, one past the end of
the 32-word content array. -/
theorem tail_index_out_of_bounds_at_max :
    MAX_CODEWORD_BITS = 256 ∧
    numFullWords 0 MAX_CODEWORD_BITS = contentWords ∧
    ¬ numFullWords 0 MAX_CODEWORD_BITS < contentWords := by
  decide

/-- Claim C3 (amended): the tail content-word read `bits[num_words]` of a
merge is within the 32-word array exactly when `offset + len` is strictly
below `MAX_CODEWORD_BITS`; in particular it is in bounds for every
`offset` in `[0, W)` whenever `len + W ≤ MAX_CODEWORD_BITS`, and out of
bounds for a maximal-length codeword. -/
theorem tail_index_in_bounds_iff :
    ∀ offset len : Nat,
      (numFullWords offset len < contentWords ↔ offset + len < MAX_CODEWORD_BITS) := by
  intro o l
  unfold numFullWords contentWords MAX_CODEWORD_BITS W
  omega

/-- Claim C4 (counterexample): the code's carry computation is the
unconditional shift `x >> (W - offset)` — as a function it is not the
spec's explicit conditional: at `offset = 0` the shift by the full word
width is actually performed (on the promoted `int`), which the operand
`256` (outside the 8-bit word range, where promotion no longer hides the
difference) exhibits. -/
theorem carry_performs_full_shift :
    carry 0 256 = 1 ∧ carrySpec 0 256 = 0 ∧ carry 0 256 ≠ carrySpec 0 256 := by
  decide

/-- Claim C4 (amended): for every offset in `[0, W)` and every value of
the 8-bit word type, the carry the code computes is well-defined and
agrees with the spec's conditional — `0` at `offset = 0` (the promoted
shift by `W` of a value `< 2 ^ W` yields `0`), else the word shifted right
by `W - offset` — even though the code performs the shift unconditionally
rather than special-casing it. -/
theorem carry_eq_carrySpec_on_words :
    ∀ offset x : Nat, offset < W → x < 2 ^ W → carry offset x = carrySpec offset x := by
  intro o x ho hx
  unfold carry carrySpec wordMask
  by_cases h0 : o = 0
  · subst h0
    have h1 : x >>> W = 0 := by
      rw [Nat.shiftRight_eq_div_pow]
      exact Nat.div_eq_of_lt hx
    simp [h1]
  · have h1 : x >>> (W - o) < 2 ^ W :=
      lt_of_le_of_lt (by rw [Nat.shiftRight_eq_div_pow]; exact Nat.div_le_self _ _) hx
    simp [h0, Nat.mod_eq_of_lt h1]

/-- Claim C4 amended, witnessed at `offset = 1`, `x = 255`. -/
theorem carry_eq_carrySpec_on_words_witness :
    1 < W ∧ 255 < 2 ^ W ∧ carry 1 255 = carrySpec 1 255 :=
  ⟨by decide, by decide, carry_eq_carrySpec_on_words 1 255 (by decide) (by decide)⟩

/-- Claim C8 (counterexample): two tables that agree on the length (1 bit)
and on the single meaningful content bit of the codeword of symbol `0`,
but differ in a don't-care bit (position 1 ≥ len), produce different
output: the merge ORs whole content words without masking, so the
algorithm does rely on don't-care bits being zero. -/
theorem dont_care_bits_leak :
    (mkCW 1 1).len = (mkCW 1 3).len ∧
    (∀ k < (mkCW 1 1).len, contentBit (mkCW 1 1) k = contentBit (mkCW 1 3) k) ∧
    encode (fun _ => mkCW 1 1) [0] = [1] ∧
    encode (fun _ => mkCW 1 3) [0] = [3] ∧
    encode (fun _ => mkCW 1 1) [0] ≠ encode (fun _ => mkCW 1 3) [0] := by
  refine ⟨rfl, ?_, by decide, by decide, by decide⟩
  intro k hk
  have hk1 : k = 0 := by
    have h1 : k < 1 := hk
    omega
  subst hk1
  decide

/-! ## Claim theorems: functional correctness and invariants -/

/-- Claim C1: for every input whose symbols all have assigned codewords,
one `encode` call emits words that reproduce the concatenation of the
symbols' codewords LSB-first, zero-padded to a whole word: the value of
the emitted word sequence equals the value of the concatenated codeword
stream, the stream value occupies only its `totalLen` meaningful low bits
(so all padding bits are zero), every emitted word fits the word type, and
exactly `ceil(totalLen / W)` words are emitted.  The table is assumed
well-formed per the spec's data model (8-bit content words, don't-care
bits masked to zero) and within `safeLen`, the length range for which
every content-word read of the C code stays inside the 32-word array
(see claim C3 for the out-of-bounds behaviour at maximal length). -/
theorem encode_bitstream (code : code_t) (input : List Nat)
    (hwf : ∀ sym ∈ input, wfCodeword (code sym))
    (hassigned : ∀ sym ∈ input, 0 < (code sym).len)
    (hsafe : ∀ sym ∈ input, safeLen (code sym)) :
    fromWords (encode code input) = specStream code input ∧
    specStream code input < 2 ^ totalLen code input ∧
    (∀ u ∈ encode code input, u < 2 ^ W) ∧
    (encode code input).length = (totalLen code input + (W - 1)) / W := by
  have hW8 : W = 8 := rfl
  obtain ⟨hlen, hoff⟩ := encodeLoop_count code input ⟨0, 0⟩ (by decide)
  obtain ⟨hmem, hbuf, hval⟩ := encodeLoop_spec code input ⟨0, 0⟩ (by decide) (by decide) hwf
  have hz0 : (Acc.mk 0 0).offset = 0 := rfl
  have hzb : (Acc.mk 0 0).buf = 0 := rfl
  rw [hz0, Nat.zero_add] at hlen hoff
  rw [hzb, hz0] at hval
  simp only [pow_zero, Nat.one_mul, Nat.zero_add] at hval
  have hspec_lt := specStream_lt input hwf
  have he : encode code input
      = (encodeLoop code ⟨0, 0⟩ input).1 ++ (flush (encodeLoop code ⟨0, 0⟩ input).2).1 := rfl
  rcases Nat.eq_zero_or_pos (totalLen code input % W) with hz | hpos
  · have hfo : (encodeLoop code ⟨0, 0⟩ input).2.offset = 0 := by rw [hoff, hz]
    have hfl : (flush (encodeLoop code ⟨0, 0⟩ input).2).1 = [] := by
      show (if 0 < (encodeLoop code ⟨0, 0⟩ input).2.offset
          then [(encodeLoop code ⟨0, 0⟩ input).2.buf] else []) = []
      rw [hfo]
      simp
    have hb0 : (encodeLoop code ⟨0, 0⟩ input).2.buf = 0 := by
      rw [hfo, pow_zero] at hbuf
      omega
    rw [he, hfl, List.append_nil]
    refine ⟨?_, hspec_lt, hmem, ?_⟩
    · rw [hb0, Nat.mul_zero, Nat.add_zero] at hval
      exact hval
    · rw [hlen, hW8]
      rw [hW8] at hz
      omega
  · have hfo : 0 < (encodeLoop code ⟨0, 0⟩ input).2.offset := by rw [hoff]; exact hpos
    have hfl : (flush (encodeLoop code ⟨0, 0⟩ input).2).1
        = [(encodeLoop code ⟨0, 0⟩ input).2.buf] := by
      show (if 0 < (encodeLoop code ⟨0, 0⟩ input).2.offset
          then [(encodeLoop code ⟨0, 0⟩ input).2.buf] else [])
        = [(encodeLoop code ⟨0, 0⟩ input).2.buf]
      rw [if_pos hfo]
    rw [he, hfl]
    refine ⟨?_, hspec_lt, ?_, ?_⟩
    · rw [fromWords_append]
      have h1 : fromWords [(encodeLoop code ⟨0, 0⟩ input).2.buf]
          = (encodeLoop code ⟨0, 0⟩ input).2.buf := by
        simp [fromWords]
      rw [h1]
      exact hval
    · intro u hu
      rcases List.mem_append.mp hu with h | h
      · exact hmem u h
      · rw [List.mem_singleton.mp h]
        calc (encodeLoop code ⟨0, 0⟩ input).2.buf
            < 2 ^ (encodeLoop code ⟨0, 0⟩ input).2.offset := hbuf
          _ ≤ 2 ^ W := Nat.pow_le_pow_right (by norm_num)
              (le_of_lt (by rw [hoff]; exact Nat.mod_lt _ W_pos))
    · rw [List.length_append, hlen, List.length_singleton, hW8]
      rw [hW8] at hpos
      omega

/-- Claim C1, witnessed on `main`'s table with the input "AB": the two
assigned, in-range codewords are merged into the single word `0x05`. -/
theorem encode_bitstream_witness :
    (∀ sym ∈ [65, 66], 0 < (mainCode sym).len ∧ safeLen (mainCode sym)) ∧
    fromWords (encode mainCode [65, 66]) = specStream mainCode [65, 66] ∧
    (encode mainCode [65, 66]).length = (totalLen mainCode [65, 66] + (W - 1)) / W := by
  refine ⟨by decide, ?_, ?_⟩
  · exact (encode_bitstream mainCode [65, 66]
      (fun sym _ => wf_mainCode sym) (by decide) (by decide)).1
  · exact (encode_bitstream mainCode [65, 66]
      (fun sym _ => wf_mainCode sym) (by decide) (by decide)).2.2.2

/-- Claim C7: with all used codewords assigned, one packing session emits
exactly `ceil(totalLen / W)` words, i.e. `ceil(totalLen / W) * W` bits
including the final padding. -/
theorem encode_word_count (code : code_t) (input : List Nat)
    (hassigned : ∀ sym ∈ input, 0 < (code sym).len) :
    (encode code input).length = (totalLen code input + (W - 1)) / W ∧
    (encode code input).length * W = ((totalLen code input + (W - 1)) / W) * W := by
  have hW8 : W = 8 := rfl
  obtain ⟨hlen, hoff⟩ := encodeLoop_count code input ⟨0, 0⟩ (by decide)
  have hz0 : (Acc.mk 0 0).offset = 0 := rfl
  rw [hz0, Nat.zero_add] at hlen hoff
  have he : encode code input
      = (encodeLoop code ⟨0, 0⟩ input).1 ++ (flush (encodeLoop code ⟨0, 0⟩ input).2).1 := rfl
  have hflen : (flush (encodeLoop code ⟨0, 0⟩ input).2).1.length
      = if 0 < totalLen code input % W then 1 else 0 := by
    show (if 0 < (encodeLoop code ⟨0, 0⟩ input).2.offset
        then [(encodeLoop code ⟨0, 0⟩ input).2.buf] else []).length = _
    rw [hoff]
    by_cases hp : 0 < totalLen code input % W
    · rw [if_pos hp, if_pos hp, List.length_singleton]
    · rw [if_neg hp, if_neg hp]
      rfl
  have h1 : (encode code input).length = (totalLen code input + (W - 1)) / W := by
    rw [he, List.length_append, hlen, hflen, hW8]
    split
    · omega
    · omega
  exact ⟨h1, by rw [h1]⟩

/-- Claim C7, witnessed on `main`'s table with the input "ABC" (1+2+3 = 6
bits, one output word). -/
theorem encode_word_count_witness :
    (∀ sym ∈ [65, 66, 67], 0 < (mainCode sym).len) ∧
    (encode mainCode [65, 66, 67]).length
      = (totalLen mainCode [65, 66, 67] + (W - 1)) / W :=
  ⟨by decide, (encode_word_count mainCode [65, 66, 67] (by decide)).1⟩

/-- Claim C10: starting from `buf = 0, offset = 0`, with every used table
entry's content bits at positions `≥ len` zero (and the words within the
8-bit type), after any sequence of merges the offset is in `[0, W)` and
the buffer's bits at positions `≥ offset` are all zero — the invariant
that makes the final flushed word's padding bits zero.  As in claim C1,
the used lengths are restricted to `safeLen`, the range in which every
content-word read of the C loop stays inside the 32-word array: for
`offset + len ≥ MAX_CODEWORD_BITS` the C code ORs the out-of-bounds byte
`bits[32]` into the buffer and no producer obligation constrains that
memory (see claim C3), so the invariant is only claimed inside the
in-bounds regime. -/
theorem accumulator_invariant (code : code_t) (input : List Nat)
    (hwf : ∀ sym ∈ input, wfCodeword (code sym))
    (hsafe : ∀ sym ∈ input, safeLen (code sym)) :
    (encodeLoop code ⟨0, 0⟩ input).2.offset < W ∧
    (encodeLoop code ⟨0, 0⟩ input).2.buf < 2 ^ (encodeLoop code ⟨0, 0⟩ input).2.offset ∧
    ∀ j, (encodeLoop code ⟨0, 0⟩ input).2.offset ≤ j →
      ((encodeLoop code ⟨0, 0⟩ input).2.buf).testBit j = false := by
  obtain ⟨hlen, hoff⟩ := encodeLoop_count code input ⟨0, 0⟩ (by decide)
  obtain ⟨hmem, hbuf, hval⟩ := encodeLoop_spec code input ⟨0, 0⟩ (by decide) (by decide) hwf
  refine ⟨?_, hbuf, ?_⟩
  · rw [hoff]
    exact Nat.mod_lt _ W_pos
  · intro j hj
    exact Nat.testBit_lt_two_pow
      (lt_of_lt_of_le hbuf (Nat.pow_le_pow_right (by norm_num) hj))

/-- Claim C10, witnessed on `main`'s table with the input "A": the state
after the merge is `buf = 1, offset = 1`. -/
theorem accumulator_invariant_witness :
    (∀ sym ∈ [65], safeLen (mainCode sym)) ∧
    (encodeLoop mainCode ⟨0, 0⟩ [65]).2.offset < W ∧
    (encodeLoop mainCode ⟨0, 0⟩ [65]).2.buf
      < 2 ^ (encodeLoop mainCode ⟨0, 0⟩ [65]).2.offset :=
  ⟨by decide,
    (accumulator_invariant mainCode [65] (fun sym _ => wf_mainCode sym) (by decide)).1,
    (accumulator_invariant mainCode [65] (fun sym _ => wf_mainCode sym) (by decide)).2.1⟩

/-- Claim C8 (amended): provided don't-care bits are actually masked to
zero (as the spec's data model obliges the producer to do) and the used
lengths stay within `safeLen` — the range in which every content-word
read of the C loop is inside the 32-word array — the output depends only
on the codeword abstraction: two well-formed tables agreeing on every
used entry's length and on every content bit below that length produce
identical output.  The `safeLen` bound matters: at
`offset + len ≥ MAX_CODEWORD_BITS` the C code reads the out-of-bounds
byte `bits[32]` (neighbouring memory the producer cannot mask, see claim
C3), so agreement on the real 32 content words could not pin the output
there. -/
theorem encode_ignores_dont_care (code1 code2 : code_t) (input : List Nat)
    (h : ∀ sym ∈ input, wfCodeword (code1 sym) ∧ wfCodeword (code2 sym) ∧
        safeLen (code1 sym) ∧ safeLen (code2 sym) ∧
        (code1 sym).len = (code2 sym).len ∧
        (∀ k, k < (code1 sym).len → contentBit (code1 sym) k = contentBit (code2 sym) k)) :
    encode code1 input = encode code2 input := by
  have hcong : ∀ sym ∈ input, code1 sym = code2 sym := by
    intro sym hs
    obtain ⟨h1, h2, _, _, h3, h4⟩ := h sym hs
    exact codeword_eq_of_agree h1 h2 h3 h4
  show (encodeLoop code1 ⟨0, 0⟩ input).1 ++ (flush (encodeLoop code1 ⟨0, 0⟩ input).2).1
      = (encodeLoop code2 ⟨0, 0⟩ input).1 ++ (flush (encodeLoop code2 ⟨0, 0⟩ input).2).1
  rw [encodeLoop_congr code1 code2 input ⟨0, 0⟩ hcong]

/-- Claim C8 amended, witnessed: a constant table whose only used entry
coincides with `main`'s entry for 'A' produces the same output as `main`'s
table on the input "A". -/
theorem encode_ignores_dont_care_witness :
    ((fun _ : Nat => mkCW 1 1) 65).len = (mainCode 65).len ∧
    safeLen ((fun _ : Nat => mkCW 1 1) 65) ∧ safeLen (mainCode 65) ∧
    encode (fun _ => mkCW 1 1) [65] = encode mainCode [65] := by
  refine ⟨by decide, by decide, by decide, ?_⟩
  apply encode_ignores_dont_care
  intro sym hs
  have h65 : sym = 65 := List.mem_singleton.mp hs
  subst h65
  exact ⟨wf_mkCW (by decide) (by decide), wf_mainCode 65, by decide, by decide, rfl,
    fun k _ => rfl⟩

end Huff
